import Mathlib

/-!
# Verification of the `woven` future-combinator library

Shallow embedding of `src/lib.rs`: the `MaybeDone` per-operand slot state
machine and the three merge protocols (`Join`, `Race`, `RaceSame`) generated
by `impl_combinators!` for arities 2..16.

Modelling choices:
* An asynchronous operand is modelled by its scripted behaviour `Fut α`:
  entry `j` of the script is the operand's answer to its `j`-th poll
  (`some v` for `Poll::Ready(v)`, `none` for `Poll::Pending`); an exhausted
  script stays pending forever.
* The macro `impl_combinators!` instantiates one shared algorithm for each
  tuple arity, with heterogeneous output types.  The embedding models the
  shared algorithm once, over a `List` of operands with a common output type
  `α`; the tuple position becomes the list index, and the `EitherN::Nth`
  tag of a race result becomes the winning index (a `Nat`).
* Rust's `unreachable!` panics are modelled by `Option`/dedicated
  constructors (`none` / `.fatal`): a `none` result is a panic, never a
  value returned to the caller.
-/

namespace Woven

/-- `core::task::Poll`: a poll either yields a final value or is pending. -/
inductive Poll (α : Type u) where
  | ready (v : α)
  | pending
  deriving Repr, DecidableEq

/-- A scripted asynchronous operand: `script[j]` is its answer to the
`j`-th poll (`some v` = `Poll::Ready(v)`, `none` = `Poll::Pending`);
an exhausted script keeps answering pending. -/
structure Fut (α : Type u) where
  script : List (Option α)
  deriving Repr, DecidableEq

/-- One poll of a scripted operand: consume the head of the script and
report it; the second component is the operand's state after this poll. -/
def Fut.poll : Fut α → Option α × Fut α
  | ⟨[]⟩ => (none, ⟨[]⟩)
  | ⟨none :: rest⟩ => (none, ⟨rest⟩)
  | ⟨some v :: rest⟩ => (some v, ⟨rest⟩)

/-- Index of the first ready answer in a script, with the value there. -/
def firstReadyAux : List (Option α) → Option (Nat × α)
  | [] => none
  | none :: rest => (firstReadyAux rest).map (fun p => (p.1 + 1, p.2))
  | some v :: _ => some (0, v)

/-- The poll index at which the operand first answers ready, together with
the value it yields there; `none` if it never answers ready. -/
def Fut.firstReady (f : Fut α) : Option (Nat × α) :=
  firstReadyAux f.script

/-- The value the operand eventually yields, if any. -/
def Fut.readyVal (f : Fut α) : Option α :=
  f.firstReady.map Prod.snd

/-- `readyBy f n = true` iff the operand answers ready within its first `n`
polls (so: by poll cycle `n`, when it is polled once per cycle). -/
def Fut.readyBy (f : Fut α) (n : Nat) : Bool :=
  match f.firstReady with
  | some (t, _) => decide (t < n)
  | none => false

/-- `MaybeDone` from `src/lib.rs`: a join slot is a not-yet-completed
future, a stored completed output, or emptied after the output was taken. -/
inductive MaybeDone (α : Type u) where
  | future (fut : Fut α)
  | done (out : α)
  | gone
  deriving Repr, DecidableEq

/-- `MaybeDone::poll`: if the slot still holds a future, poll it once; on
`Ready(res)` store the result (`*this = Self::Done(res)`) and return `true`,
on `Pending` return `false`.  Any other state returns `true` immediately
without polling anything (the `_ => true` arm). -/
def MaybeDone.poll : MaybeDone α → MaybeDone α × Bool
  | .future fut =>
    match Fut.poll fut with
    | (some res, _) => (.done res, true)
    | (none, fut') => (.future fut', false)
  | .done out => (.done out, true)
  | .gone => (.gone, true)

/-- `MaybeDone::take_output`: defined only in the `Done` state, where it
moves the output out and leaves `Gone`; in `Future` or `Gone` it hits
`unreachable!`, modelled as `none`. -/
def MaybeDone.take_output : MaybeDone α → Option (α × MaybeDone α)
  | .done out => some (out, .gone)
  | .future _ => none
  | .gone => none

/-- The `$( done &= this.$F.poll(cx); )*` loop of `Join::poll`: advance
every slot in declared order and accumulate the conjunction of the
results (`&=` does not short-circuit: every slot is polled). -/
def Join.advanceAll : List (MaybeDone α) → List (MaybeDone α) × Bool
  | [] => ([], true)
  | s :: rest =>
    let sr := MaybeDone.poll s
    let rr := Join.advanceAll rest
    (sr.1 :: rr.1, sr.2 && rr.2)

/-- The `($( this.$F.take_output(), )*)` tuple assembly of `Join::poll`:
take every slot's output in declared order; `none` if any slot panics. -/
def Join.takeAll : List (MaybeDone α) → Option (List α × List (MaybeDone α))
  | [] => some ([], [])
  | s :: rest =>
    match MaybeDone.take_output s, Join.takeAll rest with
    | some (v, s'), some (vs, rest') => some (v :: vs, s' :: rest')
    | _, _ => none

/-- One poll of the combined join future (`Join::poll`): advance all slots,
and if the conjunction is true assemble the output tuple, else report
pending.  `none` models a panic inside `take_output`. -/
def Join.pollOnce (slots : List (MaybeDone α)) :
    Option (Poll (List α) × List (MaybeDone α)) :=
  let ar := Join.advanceAll slots
  if ar.2 then
    match Join.takeAll ar.1 with
    | some (vs, slots') => some (.ready vs, slots')
    | none => none
  else
    some (.pending, ar.1)

/-- Observable state of a driver run of a join: still pending with the
current slots, completed with the output tuple and final slots, or crashed
on an `unreachable!`. -/
inductive JoinRun (α : Type u) where
  | pending (slots : List (MaybeDone α))
  | ready (outs : List α) (slots : List (MaybeDone α))
  | fatal
  deriving Repr, DecidableEq

/-- `join` construction: wrap every operand in `MaybeDone::Future`. -/
def Join.init (ops : List (Fut α)) : List (MaybeDone α) :=
  ops.map MaybeDone.future

/-- Drive the combined join future for `n` poll cycles: the external driver
re-polls while the result is pending and stops once it is ready. -/
def Join.drive (ops : List (Fut α)) : Nat → JoinRun α
  | 0 => .pending (Join.init ops)
  | n + 1 =>
    match Join.drive ops n with
    | .pending slots =>
      match Join.pollOnce slots with
      | some (.ready vs, slots') => .ready vs slots'
      | some (.pending, slots') => .pending slots'
      | none => .fatal
    | r => r

/-- The slot a join operand has reached after being polled once in each of
`n` cycles: done once the script answered ready, otherwise still holding
the rest of its script. -/
def slotAfter (n : Nat) (f : Fut α) : MaybeDone α :=
  match f.firstReady with
  | some (t, v) => if t < n then .done v else .future ⟨f.script.drop n⟩
  | none => .future ⟨f.script.drop n⟩

/-- One poll of the combined race future: the `poll_fn` body of
`Race::race`.  Operands are polled in declared order; the first `Ready`
wins immediately (`return Poll::Ready($Either::$Nth(x))`), so operands
after the winner are left untouched this cycle.  The winner is reported as
`(index, value)`, modelling the `EitherN` positional tag; the second
component is the operand list after this cycle's polls. -/
def Race.cycle : List (Fut α) → Option (Nat × α) × List (Fut α)
  | [] => (none, [])
  | f :: rest =>
    match Fut.poll f with
    | (some v, f') => (some (0, v), f' :: rest)
    | (none, f') =>
      let rr := Race.cycle rest
      ((rr.1.map fun p => (p.1 + 1, p.2)), f' :: rr.2)

/-- One poll of the combined race-same future: the `poll_fn` body of
`RaceSame::race_same`, identical to `Race.cycle` except that the winning
value is returned bare (`return Poll::Ready(x)`), with no positional tag. -/
def RaceSame.cycle : List (Fut α) → Option α × List (Fut α)
  | [] => (none, [])
  | f :: rest =>
    match Fut.poll f with
    | (some v, f') => (some v, f' :: rest)
    | (none, f') =>
      let rr := RaceSame.cycle rest
      (rr.1, f' :: rr.2)

/-- Instrumentation: how many operands one `poll_fn` cycle polls — the
traversal (shared by race and race-same) polls operands in declared order
and stops at the first ready answer. -/
def polledThisCycle : List (Fut α) → Nat
  | [] => 0
  | f :: rest =>
    match (Fut.poll f).1 with
    | some _ => 1
    | none => 1 + polledThisCycle rest

/-- State of the combined race future between driver polls: still racing
with the current operand states, or completed with the tagged winner (the
`async fn` state machine past its final `await` holds no operands). -/
inductive RaceSt (α : Type u) where
  | running (futs : List (Fut α))
  | won (out : Nat × α)
  deriving Repr, DecidableEq

/-- One driver poll of the combined race future, instrumented with the
number of operand polls it performs: a completed race polls no operand. -/
def Race.step : RaceSt α → RaceSt α × Nat
  | .running futs =>
    match Race.cycle futs with
    | (some (i, v), _) => (.won (i, v), polledThisCycle futs)
    | (none, futs') => (.running futs', polledThisCycle futs)
  | .won iv => (.won iv, 0)

/-- The race state after `n` driver polls starting from operands `futs`. -/
def Race.stateAt (futs : List (Fut α)) : Nat → RaceSt α
  | 0 => .running futs
  | n + 1 => (Race.step (Race.stateAt futs n)).1

/-- Number of operand polls the race performs during poll cycle `n + 1`. -/
def Race.pollsAt (futs : List (Fut α)) (n : Nat) : Nat :=
  (Race.step (Race.stateAt futs n)).2

/-- State of the combined race-same future between driver polls. -/
inductive RaceSameSt (α : Type u) where
  | running (futs : List (Fut α))
  | won (out : α)
  deriving Repr, DecidableEq

/-- One driver poll of the combined race-same future, instrumented with
the number of operand polls it performs. -/
def RaceSame.step : RaceSameSt α → RaceSameSt α × Nat
  | .running futs =>
    match RaceSame.cycle futs with
    | (some v, _) => (.won v, polledThisCycle futs)
    | (none, futs') => (.running futs', polledThisCycle futs)
  | .won v => (.won v, 0)

/-- The race-same state after `n` driver polls. -/
def RaceSame.stateAt (futs : List (Fut α)) : Nat → RaceSameSt α
  | 0 => .running futs
  | n + 1 => (RaceSame.step (RaceSame.stateAt futs n)).1

/-- Number of operand polls the race-same performs during cycle `n + 1`. -/
def RaceSame.pollsAt (futs : List (Fut α)) (n : Nat) : Nat :=
  (RaceSame.step (RaceSame.stateAt futs n)).2

/-- Discard the positional tag of a race state: the refinement map from
`Race` runs to `RaceSame` runs. -/
def RaceSt.untag : RaceSt α → RaceSameSt α
  | .running futs => .running futs
  | .won (_, v) => .won v

/-- Position of a slot state in the lifecycle
`InProgress → Completed → Consumed`. -/
def MaybeDone.rank : MaybeDone α → Nat
  | .future _ => 0
  | .done _ => 1
  | .gone => 2

end Woven

namespace Woven

/-! ## Helper lemmas about scripts and slots -/

theorem firstReadyAux_eq_none {α : Type u} {s : List (Option α)} :
    firstReadyAux s = none ↔ ∀ x ∈ s, x = none := by
  induction s with
  | nil => simp [firstReadyAux]
  | cons a rest ih =>
    cases a with
    | none => simpa [firstReadyAux] using ih
    | some v => simp [firstReadyAux]

theorem firstReadyAux_eq_some {α : Type u} {s : List (Option α)} {t : Nat} {v : α}
    (h : firstReadyAux s = some (t, v)) :
    s[t]? = some (some v) ∧ ∀ j < t, s[j]? = some none := by
  induction s generalizing t with
  | nil => simp [firstReadyAux] at h
  | cons a rest ih =>
    cases a with
    | some w =>
      simp [firstReadyAux] at h
      obtain ⟨ht, hw⟩ := h
      subst ht
      subst hw
      exact ⟨List.getElem?_cons_zero, fun j hj => absurd hj (Nat.not_lt_zero j)⟩
    | none =>
      simp only [firstReadyAux, Option.map_eq_some'] at h
      obtain ⟨⟨t', v'⟩, hfr, hp⟩ := h
      have ht : t' + 1 = t := congrArg Prod.fst hp
      have hv : v' = v := congrArg Prod.snd hp
      subst hv
      subst ht
      obtain ⟨h1, h2⟩ := ih hfr
      refine ⟨by simpa [List.getElem?_cons_succ] using h1, fun j hj => ?_⟩
      cases j with
      | zero => exact List.getElem?_cons_zero
      | succ j' =>
        simpa [List.getElem?_cons_succ] using h2 j' (Nat.lt_of_succ_lt_succ hj)

theorem slotAfter_zero {α : Type u} (f : Fut α) : slotAfter 0 f = .future f := by
  cases h : f.firstReady with
  | none => simp [slotAfter, h]
  | some p => obtain ⟨t, v⟩ := p; simp [slotAfter, h]

/-- One polling cycle moves a slot from its cycle-`n` state to its
cycle-`n + 1` state, reporting done exactly when the operand has answered
ready within `n + 1` polls. -/
theorem slot_step {α : Type u} (f : Fut α) (n : Nat) :
    MaybeDone.poll (slotAfter n f) = (slotAfter (n + 1) f, f.readyBy (n + 1)) := by
  cases h : f.firstReady with
  | none =>
    have hall : ∀ x ∈ f.script, x = none := firstReadyAux_eq_none.mp h
    simp only [slotAfter, h, Fut.readyBy]
    cases hd : f.script.drop n with
    | nil =>
      have hlen : f.script.length ≤ n := List.drop_eq_nil_iff.mp hd
      have hd' : f.script.drop (n + 1) = [] :=
        List.drop_eq_nil_of_le (Nat.le_succ_of_le hlen)
      simp [MaybeDone.poll, Fut.poll, hd, hd']
    | cons a rest =>
      have hmem : a ∈ f.script.drop n := by
        rw [hd]
        exact List.mem_cons_self a rest
      have ha : a = none := hall a (List.mem_of_mem_drop hmem)
      subst ha
      have hrest : rest = f.script.drop (n + 1) := by
        have := List.tail_drop f.script n
        simpa [hd] using this
      simp [MaybeDone.poll, Fut.poll, hd, hrest]
  | some p =>
    obtain ⟨t, v⟩ := p
    obtain ⟨hget, hlt⟩ := firstReadyAux_eq_some h
    rcases Nat.lt_trichotomy t n with htn | htn | htn
    · have ht1 : t < n + 1 := Nat.lt_succ_of_lt htn
      simp [slotAfter, h, Fut.readyBy, htn, ht1, MaybeDone.poll]
    · subst htn
      obtain ⟨hlen, hval⟩ := List.getElem?_eq_some.mp hget
      have hd : f.script.drop t = some v :: f.script.drop (t + 1) := by
        rw [List.drop_eq_getElem_cons hlen, hval]
      simp [slotAfter, h, Fut.readyBy, Nat.lt_irrefl, Nat.lt_succ_self,
        MaybeDone.poll, Fut.poll, hd]
    · have hn1 : ¬ t < n + 1 := Nat.not_lt.mpr htn
      have hnn : ¬ t < n := Nat.not_lt.mpr (Nat.le_of_lt htn)
      obtain ⟨hlen, hval⟩ := List.getElem?_eq_some.mp (hlt n htn)
      have hd : f.script.drop n = none :: f.script.drop (n + 1) := by
        rw [List.drop_eq_getElem_cons hlen, hval]
      simp [slotAfter, h, Fut.readyBy, hnn, hn1, MaybeDone.poll, Fut.poll, hd]

end Woven

namespace Woven

theorem Fut.readyBy_zero {α : Type u} (f : Fut α) : f.readyBy 0 = false := by
  unfold Fut.readyBy
  cases h : f.firstReady with
  | none => rfl
  | some p => obtain ⟨t, v⟩ := p; simp

theorem Fut.readyBy_mono {α : Type u} {f : Fut α} {n : Nat}
    (h : f.readyBy n = true) : f.readyBy (n + 1) = true := by
  unfold Fut.readyBy at h ⊢
  cases hf : f.firstReady with
  | none => rw [hf] at h; cases h
  | some p =>
    obtain ⟨t, v⟩ := p
    rw [hf] at h
    simp only [decide_eq_true_eq] at h ⊢
    exact Nat.lt_succ_of_lt h

theorem slotAfter_done_of_readyBy {α : Type u} {f : Fut α} {n : Nat}
    (h : f.readyBy n = true) :
    ∃ v, slotAfter n f = .done v ∧ f.readyVal = some v := by
  unfold Fut.readyBy at h
  cases hf : f.firstReady with
  | none => rw [hf] at h; cases h
  | some p =>
    obtain ⟨t, v⟩ := p
    rw [hf] at h
    have ht : t < n := of_decide_eq_true h
    exact ⟨v, by simp [slotAfter, hf, ht], by simp [Fut.readyVal, hf]⟩

/-- `Join::poll`'s loop advances every slot (in declared order) and takes
the conjunction of the results; no short-circuiting. -/
theorem Join.advanceAll_eq {α : Type u} (slots : List (MaybeDone α)) :
    Join.advanceAll slots =
      (slots.map (fun s => (MaybeDone.poll s).1),
        slots.all (fun s => (MaybeDone.poll s).2)) := by
  induction slots with
  | nil => simp [Join.advanceAll]
  | cons s rest ih => simp [Join.advanceAll, ih]

theorem advanceAll_map_slotAfter {α : Type u} (ops : List (Fut α)) (n : Nat) :
    Join.advanceAll (ops.map (slotAfter n)) =
      (ops.map (slotAfter (n + 1)), ops.all (fun f => f.readyBy (n + 1))) := by
  induction ops with
  | nil => simp [Join.advanceAll]
  | cons f rest ih => simp [Join.advanceAll, slot_step, ih]

theorem takeAll_of_all_done {α : Type u} (slots : List (MaybeDone α))
    (h : ∀ s ∈ slots, ∃ v, s = .done v) :
    ∃ vs, Join.takeAll slots = some (vs, List.replicate slots.length .gone) ∧
      vs.length = slots.length ∧
      ∀ i (hi : i < slots.length) (hv : i < vs.length),
        slots[i] = MaybeDone.done (vs[i]) := by
  induction slots with
  | nil =>
    exact ⟨[], by simp [Join.takeAll], rfl, fun i hi _ => absurd hi (Nat.not_lt_zero i)⟩
  | cons s rest ih =>
    obtain ⟨v, rfl⟩ := h s (List.mem_cons_self s rest)
    obtain ⟨vs, htake, hlen, hvals⟩ :=
      ih (fun s' hs' => h s' (List.mem_cons_of_mem _ hs'))
    refine ⟨v :: vs, ?_, by simp [hlen], ?_⟩
    · simp [Join.takeAll, MaybeDone.take_output, htake, List.replicate_succ]
    · intro i hi hv
      cases i with
      | zero => simp
      | succ i' =>
        simp only [List.getElem_cons_succ]
        exact hvals i' (by simpa using hi) (by simpa using hv)

/-- Full characterization of a driven join run: while some operand has not
yet answered ready, the combined future is pending with every slot in its
per-cycle state; once every operand has answered ready, the combined future
has reported ready with each output in declared position and every slot
emptied. -/
theorem Join.drive_spec {α : Type u} (ops : List (Fut α)) (hne : ops ≠ [])
    (n : Nat) :
    (¬ (∀ f ∈ ops, f.readyBy n = true) →
      Join.drive ops n = .pending (ops.map (slotAfter n))) ∧
    ((∀ f ∈ ops, f.readyBy n = true) →
      ∃ vs, Join.drive ops n = .ready vs (List.replicate ops.length .gone) ∧
        vs.length = ops.length ∧
        ∀ i (hi : i < ops.length) (hv : i < vs.length),
          (ops[i]).readyVal = some (vs[i])) := by
  induction n with
  | zero =>
    constructor
    · intro _
      simp [Join.drive, Join.init, slotAfter_zero]
    · intro hall
      obtain ⟨f, hf⟩ := List.exists_mem_of_ne_nil ops hne
      have := hall f hf
      rw [Fut.readyBy_zero] at this
      cases this
  | succ n ih =>
    by_cases hAll : ∀ f ∈ ops, f.readyBy n = true
    · obtain ⟨vs, hdr, hlen, hvals⟩ := ih.2 hAll
      have hAll1 : ∀ f ∈ ops, f.readyBy (n + 1) = true :=
        fun f hf => Fut.readyBy_mono (hAll f hf)
      refine ⟨fun hc => absurd hAll1 hc, fun _ => ⟨vs, ?_, hlen, hvals⟩⟩
      simp [Join.drive, hdr]
    · have hpend : Join.drive ops n = .pending (ops.map (slotAfter n)) :=
        ih.1 hAll
      have hadv := advanceAll_map_slotAfter ops n
      by_cases hAll1 : ∀ f ∈ ops, f.readyBy (n + 1) = true
      · have hball : ops.all (fun f => f.readyBy (n + 1)) = true :=
          List.all_eq_true.mpr hAll1
        have hdone : ∀ s ∈ ops.map (slotAfter (n + 1)), ∃ v, s = .done v := by
          intro s hs
          rw [List.mem_map] at hs
          obtain ⟨f, hf, rfl⟩ := hs
          obtain ⟨v, hv, _⟩ := slotAfter_done_of_readyBy (hAll1 f hf)
          exact ⟨v, hv⟩
        obtain ⟨vs, htake, hlen, hvals⟩ := takeAll_of_all_done _ hdone
        have hpoll : Join.pollOnce (ops.map (slotAfter n)) =
            some (.ready vs, List.replicate ops.length .gone) := by
          unfold Join.pollOnce
          rw [hadv]
          simp [hball, htake]
        refine ⟨fun hc => absurd hAll1 hc, fun _ => ⟨vs, ?_, by simpa using hlen, ?_⟩⟩
        · simp [Join.drive, hpend, hpoll]
        · intro i hi hv
          obtain ⟨v, hslot, hval⟩ :=
            slotAfter_done_of_readyBy (hAll1 (ops[i]) (ops.getElem_mem hi))
          have hgot := hvals i (by simpa using hi) (by simpa using hv)
          rw [List.getElem_map] at hgot
          rw [hslot] at hgot
          have : v = vs[i] := by
            cases hgot
            rfl
          rw [hval, this]
      · have hball : ops.all (fun f => f.readyBy (n + 1)) = false := by
          rcases hb : ops.all (fun f => f.readyBy (n + 1)) with _ | _
          · rfl
          · exact absurd (List.all_eq_true.mp hb) hAll1
        have hpoll : Join.pollOnce (ops.map (slotAfter n)) =
            some (.pending, ops.map (slotAfter (n + 1))) := by
          unfold Join.pollOnce
          rw [hadv]
          simp [hball]
        refine ⟨fun _ => ?_, fun hc => absurd hc hAll1⟩
        simp [Join.drive, hpend, hpoll]

end Woven

namespace Woven

/-! ## Helper lemmas about the race cycle -/

theorem Race.cycle_none {α : Type u} (futs : List (Fut α)) :
    (Race.cycle futs).1 = none ↔ ∀ f ∈ futs, (Fut.poll f).1 = none := by
  induction futs with
  | nil => simp [Race.cycle]
  | cons f rest ih =>
    rcases hp : Fut.poll f with ⟨hd, f'⟩
    cases hd with
    | some v =>
      simp only [Race.cycle, hp]
      constructor
      · intro h; cases h
      · intro h
        have := h f (List.mem_cons_self f rest)
        rw [hp] at this
        cases this
    | none =>
      simp only [Race.cycle, hp]
      constructor
      · intro h
        rw [Option.map_eq_none'] at h
        intro g hg
        rcases List.mem_cons.mp hg with rfl | hg'
        · rw [hp]
        · exact (ih.mp h) g hg'
      · intro h
        rw [Option.map_eq_none']
        exact ih.mpr fun g hg => h g (List.mem_cons_of_mem f hg)

/-- When a race cycle produces a winner `(i, v)`: the winner is operand `i`,
its poll this cycle answers `v`, every operand before it answers pending
this cycle (so `i` is the lowest-index ready operand), and every operand
after it is left exactly as it was (it is not polled this cycle). -/
theorem Race.cycle_some {α : Type u} {futs : List (Fut α)} {i : Nat} {v : α}
    {futs' : List (Fut α)} (h : Race.cycle futs = (some (i, v), futs')) :
    (∃ fi, futs[i]? = some fi ∧ (Fut.poll fi).1 = some v) ∧
    (∀ j < i, ∃ fj, futs[j]? = some fj ∧ (Fut.poll fj).1 = none) ∧
    futs'.length = futs.length ∧
    (∀ j, i < j → futs'[j]? = futs[j]?) := by
  induction futs generalizing i futs' with
  | nil => simp [Race.cycle] at h
  | cons f rest ih =>
    rcases hp : Fut.poll f with ⟨hd, f'⟩
    cases hd with
    | some w =>
      rw [Race.cycle, hp] at h
      have hi : i = 0 ∧ v = w ∧ futs' = f' :: rest := by
        refine ⟨?_, ?_, ?_⟩
        · have := congrArg (fun q => q.1) h
          simpa using (congrArg Prod.fst (Option.some.inj this)).symm
        · have := congrArg (fun q => q.1) h
          simpa using (congrArg Prod.snd (Option.some.inj this)).symm
        · exact (congrArg (fun q => q.2) h).symm
      obtain ⟨rfl, rfl, rfl⟩ := hi
      refine ⟨⟨f, by simp, hp ▸ rfl⟩, fun j hj => absurd hj (Nat.not_lt_zero j),
        by simp, fun j hj => ?_⟩
      obtain ⟨j', rfl⟩ := Nat.exists_eq_add_of_lt hj
      simp [List.getElem?_cons_succ]
    | none =>
      rcases hcr : Race.cycle rest with ⟨r1, r2⟩
      rw [Race.cycle, hp, hcr] at h
      have h1 : r1.map (fun p => (p.1 + 1, p.2)) = some (i, v) :=
        congrArg (fun q => q.1) h
      have h2 : futs' = f' :: r2 := (congrArg (fun q => q.2) h).symm
      rw [Option.map_eq_some'] at h1
      obtain ⟨⟨i', v'⟩, hr1, hiv⟩ := h1
      have hi : i' + 1 = i := congrArg Prod.fst hiv
      have hv : v' = v := congrArg Prod.snd hiv
      subst hv
      subst hi
      subst h2
      rw [hr1] at hcr
      obtain ⟨⟨fi, hfi, hfiv⟩, hbefore, hlen, hafter⟩ := ih hcr
      refine ⟨⟨fi, by simpa [List.getElem?_cons_succ] using hfi, hfiv⟩,
        fun j hj => ?_, by simp [hlen], fun j hj => ?_⟩
      · cases j with
        | zero => exact ⟨f, by simp, hp ▸ rfl⟩
        | succ j' =>
          obtain ⟨fj, hfj, hfjn⟩ := hbefore j' (Nat.lt_of_succ_lt_succ hj)
          exact ⟨fj, by simpa [List.getElem?_cons_succ] using hfj, hfjn⟩
      · obtain ⟨j', rfl⟩ := Nat.exists_eq_add_of_lt hj
        have hidx : i' + 1 + j' + 1 = (i' + j' + 1) + 1 := by omega
        rw [hidx]
        have := hafter (i' + j' + 1) (by omega)
        simpa [List.getElem?_cons_succ] using this

end Woven

namespace Woven

/-- A cycle with winner `i` polls exactly the operands `0..i` (in declared
order): `i + 1` polls. -/
theorem polledThisCycle_of_winner {α : Type u} {futs : List (Fut α)} {i : Nat}
    {v : α} {futs' : List (Fut α)} (h : Race.cycle futs = (some (i, v), futs')) :
    polledThisCycle futs = i + 1 := by
  induction futs generalizing i futs' with
  | nil => simp [Race.cycle] at h
  | cons f rest ih =>
    rcases hp : Fut.poll f with ⟨hd, f'⟩
    cases hd with
    | some w =>
      rw [Race.cycle, hp] at h
      have hi : (0 : Nat) = i := by
        have := congrArg (fun q => q.1) h
        simpa using congrArg Prod.fst (Option.some.inj this)
      rw [polledThisCycle, hp, ← hi]
    | none =>
      rcases hcr : Race.cycle rest with ⟨r1, r2⟩
      rw [Race.cycle, hp, hcr] at h
      have h1 : r1.map (fun p => (p.1 + 1, p.2)) = some (i, v) :=
        congrArg (fun q => q.1) h
      rw [Option.map_eq_some'] at h1
      obtain ⟨⟨i', v'⟩, hr1, hiv⟩ := h1
      have hi : i' + 1 = i := congrArg Prod.fst hiv
      have hv : v' = v := congrArg Prod.snd hiv
      subst hv
      subst hi
      rw [hr1] at hcr
      simp [polledThisCycle, hp, ih hcr]
      omega

/-- A cycle with no winner polls every operand once. -/
theorem polledThisCycle_of_none {α : Type u} {futs : List (Fut α)}
    (h : (Race.cycle futs).1 = none) : polledThisCycle futs = futs.length := by
  induction futs with
  | nil => simp [polledThisCycle]
  | cons f rest ih =>
    rcases hp : Fut.poll f with ⟨hd, f'⟩
    cases hd with
    | some w => rw [Race.cycle, hp] at h; cases h
    | none =>
      rw [Race.cycle, hp] at h
      simp only [Option.map_eq_none'] at h
      simp [polledThisCycle, hp, ih h]
      omega

/-- A completed race is absorbing: once the combined future has reported
ready, every later driver poll leaves it completed and performs zero
operand polls. -/
theorem Race.won_absorb {α : Type u} {futs : List (Fut α)} {k : Nat}
    {iv : Nat × α} (h : Race.stateAt futs k = .won iv) :
    ∀ m, k ≤ m → Race.stateAt futs m = .won iv ∧ Race.pollsAt futs m = 0 := by
  intro m hm
  induction m, hm using Nat.le_induction with
  | base => exact ⟨h, by rw [Race.pollsAt, h]; rfl⟩
  | succ m hm ihm =>
    have hst : Race.stateAt futs (m + 1) = .won iv := by
      rw [Race.stateAt, ihm.1]
      rfl
    exact ⟨hst, by rw [Race.pollsAt, hst]; rfl⟩

/-- One race-same cycle is one race cycle with the positional tag of the
winner discarded. -/
theorem RaceSame.cycle_eq {α : Type u} (futs : List (Fut α)) :
    RaceSame.cycle futs =
      ((Race.cycle futs).1.map Prod.snd, (Race.cycle futs).2) := by
  induction futs with
  | nil => simp [RaceSame.cycle, Race.cycle]
  | cons f rest ih =>
    rcases hp : Fut.poll f with ⟨hd, f'⟩
    cases hd with
    | some v => simp [RaceSame.cycle, Race.cycle, hp]
    | none =>
      simp only [RaceSame.cycle, Race.cycle, hp, ih]
      rcases (Race.cycle rest).1 with _ | ⟨i, v⟩ <;> simp

/-- The race-same run is the race run through the tag-discarding map, at
every driver poll, with identical operand-poll counts. -/
theorem RaceSame.stateAt_eq {α : Type u} (futs : List (Fut α)) (n : Nat) :
    RaceSame.stateAt futs n = RaceSt.untag (Race.stateAt futs n) ∧
      (RaceSame.step (RaceSame.stateAt futs n)).2 =
        (Race.step (Race.stateAt futs n)).2 := by
  have hstep : ∀ st : RaceSt α,
      RaceSame.step (RaceSt.untag st) =
        (RaceSt.untag (Race.step st).1, (Race.step st).2) := by
    intro st
    cases st with
    | won iv => obtain ⟨i, v⟩ := iv; rfl
    | running fs =>
      rcases hc : Race.cycle fs with ⟨r1, r2⟩
      cases r1 with
      | none =>
        simp [RaceSame.step, RaceSame.cycle_eq, Race.step, hc, RaceSt.untag]
      | some p =>
        obtain ⟨i, v⟩ := p
        simp [RaceSame.step, RaceSame.cycle_eq, Race.step, hc, RaceSt.untag]
  induction n with
  | zero =>
    exact ⟨rfl, congrArg Prod.snd (hstep (.running futs))⟩
  | succ n ihn =>
    have h1 : RaceSame.stateAt futs (n + 1) =
        RaceSt.untag (Race.stateAt futs (n + 1)) := by
      rw [RaceSame.stateAt, Race.stateAt, ihn.1]
      exact congrArg Prod.fst (hstep _)
    refine ⟨h1, ?_⟩
    rw [h1]
    exact congrArg Prod.snd (hstep _)

end Woven

namespace Woven

/-! ## Bridging lemmas used by the claim theorems -/

theorem Fut.readyBy_iff {α : Type u} {f : Fut α} {n : Nat} :
    f.readyBy n = true ↔ ∃ t v, f.firstReady = some (t, v) ∧ t < n := by
  unfold Fut.readyBy
  cases hf : f.firstReady with
  | none => simp
  | some p =>
    obtain ⟨t, v⟩ := p
    simp only [decide_eq_true_eq]
    constructor
    · intro h; exact ⟨t, v, rfl, h⟩
    · rintro ⟨t', v', heq, hlt⟩
      obtain ⟨rfl, rfl⟩ : t = t' ∧ v = v' := by
        constructor
        · exact congrArg Prod.fst (Option.some.inj heq)
        · exact congrArg Prod.snd (Option.some.inj heq)
      exact hlt

theorem slotAfter_eq_done_iff {α : Type u} {f : Fut α} {n : Nat} {v : α} :
    slotAfter n f = .done v ↔ ∃ t, f.firstReady = some (t, v) ∧ t < n := by
  unfold slotAfter
  cases hf : f.firstReady with
  | none => simp
  | some p =>
    obtain ⟨t, v'⟩ := p
    by_cases ht : t < n
    · simp only [ht, if_true]
      constructor
      · intro h
        refine ⟨t, ?_, ht⟩
        rw [← MaybeDone.done.inj h]
      · rintro ⟨t', heq, _⟩
        have hv : v' = v := congrArg Prod.snd (Option.some.inj heq)
        rw [hv]
    · simp only [ht, if_false]
      constructor
      · intro h; cases h
      · rintro ⟨t', heq, hlt⟩
        have : t = t' := congrArg Prod.fst (Option.some.inj heq)
        exact absurd (this ▸ hlt) ht

theorem slotAfter_ne_gone {α : Type u} (f : Fut α) (n : Nat) :
    slotAfter n f ≠ .gone := by
  unfold slotAfter
  cases hf : f.firstReady with
  | none => simp
  | some p =>
    obtain ⟨t, v⟩ := p
    by_cases ht : t < n <;> simp [ht]

theorem Join.drive_pending_eq {α : Type u} {ops : List (Fut α)} {n : Nat}
    {slots : List (MaybeDone α)} (hne : ops ≠ [])
    (h : Join.drive ops n = .pending slots) :
    slots = ops.map (slotAfter n) ∧ ¬ (∀ f ∈ ops, f.readyBy n = true) := by
  by_cases hall : ∀ f ∈ ops, f.readyBy n = true
  · obtain ⟨vs, hd, _, _⟩ := (Join.drive_spec ops hne n).2 hall
    rw [hd] at h
    cases h
  · have hp := (Join.drive_spec ops hne n).1 hall
    rw [hp] at h
    exact ⟨(JoinRun.pending.inj h).symm, hall⟩

theorem Join.drive_ready_eq {α : Type u} {ops : List (Fut α)} {n : Nat}
    {vs : List α} {slots : List (MaybeDone α)} (hne : ops ≠ [])
    (h : Join.drive ops n = .ready vs slots) :
    (∀ f ∈ ops, f.readyBy n = true) ∧
      slots = List.replicate ops.length .gone ∧
      vs.length = ops.length ∧
      ∀ i (hi : i < ops.length) (hv : i < vs.length),
        (ops[i]).readyVal = some (vs[i]) := by
  by_cases hall : ∀ f ∈ ops, f.readyBy n = true
  · obtain ⟨vs', hd, hlen, hvals⟩ := (Join.drive_spec ops hne n).2 hall
    rw [hd] at h
    obtain ⟨rfl, rfl⟩ : vs' = vs ∧ List.replicate ops.length .gone = slots :=
      ⟨(JoinRun.ready.inj h).1, (JoinRun.ready.inj h).2⟩
    exact ⟨hall, rfl, hlen, hvals⟩
  · have hp := (Join.drive_spec ops hne n).1 hall
    rw [hp] at h
    cases h

theorem Join.advanceAll_gone {α : Type u} (k : Nat) :
    Join.advanceAll (List.replicate k (MaybeDone.gone : MaybeDone α)) =
      (List.replicate k .gone, true) := by
  induction k with
  | zero => rfl
  | succ k ih => simp [List.replicate_succ, Join.advanceAll, MaybeDone.poll, ih]

theorem Join.pollOnce_gone {α : Type u} (k : Nat) (hk : 1 ≤ k) :
    Join.pollOnce (List.replicate k (MaybeDone.gone : MaybeDone α)) = none := by
  obtain ⟨k', rfl⟩ := Nat.exists_eq_add_of_le hk
  unfold Join.pollOnce
  rw [Join.advanceAll_gone]
  simp only [if_true]
  have : List.replicate (1 + k') (MaybeDone.gone : MaybeDone α) =
      .gone :: List.replicate k' .gone := by
    rw [Nat.add_comm, List.replicate_succ]
  rw [this, Join.takeAll, MaybeDone.take_output]

theorem RaceSame.won_frozen {α : Type u} {futs : List (Fut α)} {k : Nat}
    {v : α} (h : RaceSame.stateAt futs k = .won v) :
    ∀ m, k ≤ m → RaceSame.stateAt futs m = .won v ∧ RaceSame.pollsAt futs m = 0 := by
  intro m hm
  induction m, hm using Nat.le_induction with
  | base => exact ⟨h, by rw [RaceSame.pollsAt, h]; rfl⟩
  | succ m hm ihm =>
    have hst : RaceSame.stateAt futs (m + 1) = .won v := by
      rw [RaceSame.stateAt, ihm.1]
      rfl
    exact ⟨hst, by rw [RaceSame.pollsAt, hst]; rfl⟩

end Woven

namespace Woven

theorem ne_nil_of_two_le {β : Type u} {l : List β} (h : 2 ≤ l.length) :
    l ≠ [] := by
  intro hnil
  rw [hnil] at h
  simp at h

/-- C1: for every arity N in 2..16 and every scripted operand behaviour,
the join's combined poll reports ready at cycle `n` iff every operand has
answered ready by cycle `n` or earlier; on every cycle before that it is
pending (with each slot in its per-cycle state); and every cycle advances
every slot in declared order, accumulating the conjunction of the results
with no short-circuit. -/
theorem join_completeness {α : Type u} (ops : List (Fut α))
    (h2 : 2 ≤ ops.length) (h16 : ops.length ≤ 16) (n : Nat) :
    ((∃ vs slots, Join.drive ops n = .ready vs slots) ↔
      ∀ f ∈ ops, ∃ t v, f.firstReady = some (t, v) ∧ t < n) ∧
    (¬ (∀ f ∈ ops, ∃ t v, f.firstReady = some (t, v) ∧ t < n) →
      Join.drive ops n = .pending (ops.map (slotAfter n))) ∧
    (∀ slots : List (MaybeDone α),
      Join.advanceAll slots =
        (slots.map (fun s => (MaybeDone.poll s).1),
          slots.all (fun s => (MaybeDone.poll s).2))) := by
  have hne : ops ≠ [] := ne_nil_of_two_le h2
  refine ⟨⟨?_, ?_⟩, ?_, Join.advanceAll_eq⟩
  · rintro ⟨vs, slots, h⟩ f hf
    exact Fut.readyBy_iff.mp ((Join.drive_ready_eq hne h).1 f hf)
  · intro hall
    obtain ⟨vs, hd, _, _⟩ := (Join.drive_spec ops hne n).2
      (fun f hf => Fut.readyBy_iff.mpr (hall f hf))
    exact ⟨vs, _, hd⟩
  · intro hnall
    refine (Join.drive_spec ops hne n).1 fun hc => ?_
    exact hnall fun f hf => Fut.readyBy_iff.mp (hc f hf)

/-- Witness for C1: a two-operand join where operand 0 is ready on its
second poll and operand 1 immediately. -/
theorem join_completeness_witness :
    (2 ≤ ([⟨[none, some 1]⟩, ⟨[some 2]⟩] : List (Fut Nat)).length ∧
      ([⟨[none, some 1]⟩, ⟨[some 2]⟩] : List (Fut Nat)).length ≤ 16) ∧
    (((∃ vs slots,
        Join.drive ([⟨[none, some 1]⟩, ⟨[some 2]⟩] : List (Fut Nat)) 2 =
          .ready vs slots) ↔
      ∀ f ∈ ([⟨[none, some 1]⟩, ⟨[some 2]⟩] : List (Fut Nat)),
        ∃ t v, f.firstReady = some (t, v) ∧ t < 2) ∧
    (¬ (∀ f ∈ ([⟨[none, some 1]⟩, ⟨[some 2]⟩] : List (Fut Nat)),
        ∃ t v, f.firstReady = some (t, v) ∧ t < 2) →
      Join.drive ([⟨[none, some 1]⟩, ⟨[some 2]⟩] : List (Fut Nat)) 2 =
        .pending (([⟨[none, some 1]⟩, ⟨[some 2]⟩] : List (Fut Nat)).map
          (slotAfter 2))) ∧
    (∀ slots : List (MaybeDone Nat),
      Join.advanceAll slots =
        (slots.map (fun s => (MaybeDone.poll s).1),
          slots.all (fun s => (MaybeDone.poll s).2)))) :=
  ⟨⟨by decide, by decide⟩, join_completeness _ (by decide) (by decide) 2⟩

/-- C2: whenever the join reports ready, the output tuple lists each
operand's output at that operand's declared position (independent of the
order in which operands completed), and every slot has been emptied by the
declared-order extraction. -/
theorem join_order_invariant {α : Type u} (ops : List (Fut α))
    (h2 : 2 ≤ ops.length) (h16 : ops.length ≤ 16) (n : Nat) (vs : List α)
    (slots : List (MaybeDone α)) (h : Join.drive ops n = .ready vs slots) :
    vs.length = ops.length ∧
    (∀ i (hi : i < ops.length) (hv : i < vs.length),
      (ops[i]).readyVal = some (vs[i])) ∧
    slots = List.replicate ops.length .gone := by
  obtain ⟨_, hsl, hlen, hvals⟩ := Join.drive_ready_eq (ne_nil_of_two_le h2) h
  exact ⟨hlen, hvals, hsl⟩

/-- Witness for C2: operand 1 completes first (cycle 1), operand 0 second
(cycle 2); the output is still `[1, 2]` in declared order. -/
theorem join_order_invariant_witness :
    (2 ≤ ([⟨[none, some 1]⟩, ⟨[some 2]⟩] : List (Fut Nat)).length ∧
      ([⟨[none, some 1]⟩, ⟨[some 2]⟩] : List (Fut Nat)).length ≤ 16 ∧
      Join.drive ([⟨[none, some 1]⟩, ⟨[some 2]⟩] : List (Fut Nat)) 2 =
        .ready [1, 2] [.gone, .gone]) ∧
    (([1, 2] : List Nat).length =
        ([⟨[none, some 1]⟩, ⟨[some 2]⟩] : List (Fut Nat)).length ∧
      (∀ i (hi : i < ([⟨[none, some 1]⟩, ⟨[some 2]⟩] : List (Fut Nat)).length)
        (hv : i < ([1, 2] : List Nat).length),
        ((([⟨[none, some 1]⟩, ⟨[some 2]⟩] : List (Fut Nat))[i]).readyVal =
          some (([1, 2] : List Nat)[i]))) ∧
      ([.gone, .gone] : List (MaybeDone Nat)) =
        List.replicate ([⟨[none, some 1]⟩, ⟨[some 2]⟩] :
          List (Fut Nat)).length .gone) :=
  ⟨⟨by decide, by decide, by decide⟩,
    join_order_invariant _ (by decide) (by decide) 2 [1, 2] [.gone, .gone]
      (by decide)⟩

end Woven

namespace Woven

/-- C3: on any poll cycle of race (and race-same), operands are polled in
declared order; the first one to report ready wins immediately with its
output tagged by its position (bare for race-same), exactly the winner's
prefix of operands is polled (operands after the winner are untouched),
and the winner is the lowest-declared-index ready operand of the cycle. -/
theorem race_tie_break {α : Type u} (futs : List (Fut α))
    (h2 : 2 ≤ futs.length) (h16 : futs.length ≤ 16) :
    (∀ i v futs', Race.cycle futs = (some (i, v), futs') →
      (∃ fi, futs[i]? = some fi ∧ (Fut.poll fi).1 = some v) ∧
      (∀ j < i, ∃ fj, futs[j]? = some fj ∧ (Fut.poll fj).1 = none) ∧
      polledThisCycle futs = i + 1 ∧
      (∀ j, i < j → futs'[j]? = futs[j]?)) ∧
    (∀ futs', Race.cycle futs = (none, futs') →
      ∀ f ∈ futs, (Fut.poll f).1 = none) ∧
    RaceSame.cycle futs =
      ((Race.cycle futs).1.map Prod.snd, (Race.cycle futs).2) := by
  refine ⟨fun i v futs' h => ?_, fun futs' h => ?_, RaceSame.cycle_eq futs⟩
  · obtain ⟨ha, hb, hd⟩ := Race.cycle_some h
    exact ⟨ha, hb, polledThisCycle_of_winner h, hd.2⟩
  · exact fun f hf => (Race.cycle_none futs).mp (by rw [h]) f hf

/-- Witness for C3: both operands would be ready on cycle 1; the
lowest-index one (value 5) wins and the other is not polled. -/
theorem race_tie_break_witness :
    (2 ≤ ([⟨[some 5]⟩, ⟨[some 9]⟩] : List (Fut Nat)).length ∧
      ([⟨[some 5]⟩, ⟨[some 9]⟩] : List (Fut Nat)).length ≤ 16) ∧
    ((∀ i v futs',
        Race.cycle ([⟨[some 5]⟩, ⟨[some 9]⟩] : List (Fut Nat)) =
          (some (i, v), futs') →
      (∃ fi, ([⟨[some 5]⟩, ⟨[some 9]⟩] : List (Fut Nat))[i]? = some fi ∧
        (Fut.poll fi).1 = some v) ∧
      (∀ j < i, ∃ fj,
        ([⟨[some 5]⟩, ⟨[some 9]⟩] : List (Fut Nat))[j]? = some fj ∧
          (Fut.poll fj).1 = none) ∧
      polledThisCycle ([⟨[some 5]⟩, ⟨[some 9]⟩] : List (Fut Nat)) = i + 1 ∧
      (∀ j, i < j → futs'[j]? =
        ([⟨[some 5]⟩, ⟨[some 9]⟩] : List (Fut Nat))[j]?)) ∧
    (∀ futs',
        Race.cycle ([⟨[some 5]⟩, ⟨[some 9]⟩] : List (Fut Nat)) =
          (none, futs') →
      ∀ f ∈ ([⟨[some 5]⟩, ⟨[some 9]⟩] : List (Fut Nat)),
        (Fut.poll f).1 = none) ∧
    RaceSame.cycle ([⟨[some 5]⟩, ⟨[some 9]⟩] : List (Fut Nat)) =
      ((Race.cycle ([⟨[some 5]⟩, ⟨[some 9]⟩] : List (Fut Nat))).1.map Prod.snd,
        (Race.cycle ([⟨[some 5]⟩, ⟨[some 9]⟩] : List (Fut Nat))).2)) :=
  ⟨⟨by decide, by decide⟩, race_tie_break _ (by decide) (by decide)⟩

/-- C4: once race (or race-same) has reported ready, every later driver
poll leaves the outcome unchanged and performs zero operand polls: no
operand is ever polled again by the completed combinator. -/
theorem race_single_resolution {α : Type u} (futs : List (Fut α))
    (h2 : 2 ≤ futs.length) (h16 : futs.length ≤ 16) (k : Nat) :
    (∀ iv : Nat × α, Race.stateAt futs k = .won iv →
      ∀ m, k ≤ m → Race.stateAt futs m = .won iv ∧ Race.pollsAt futs m = 0) ∧
    (∀ v : α, RaceSame.stateAt futs k = .won v →
      ∀ m, k ≤ m →
        RaceSame.stateAt futs m = .won v ∧ RaceSame.pollsAt futs m = 0) :=
  ⟨fun _ h => Race.won_absorb h, fun _ h => RaceSame.won_frozen h⟩

/-- Witness for C4: operand 1 wins on cycle 1; afterwards the race state
is frozen and no operand polls happen. -/
theorem race_single_resolution_witness :
    (2 ≤ ([⟨[none, some 1]⟩, ⟨[some 2]⟩] : List (Fut Nat)).length ∧
      ([⟨[none, some 1]⟩, ⟨[some 2]⟩] : List (Fut Nat)).length ≤ 16) ∧
    ((∀ iv : Nat × Nat,
        Race.stateAt ([⟨[none, some 1]⟩, ⟨[some 2]⟩] : List (Fut Nat)) 1 =
          .won iv →
      ∀ m, 1 ≤ m →
        Race.stateAt ([⟨[none, some 1]⟩, ⟨[some 2]⟩] : List (Fut Nat)) m =
            .won iv ∧
          Race.pollsAt ([⟨[none, some 1]⟩, ⟨[some 2]⟩] : List (Fut Nat)) m = 0) ∧
    (∀ v : Nat,
        RaceSame.stateAt ([⟨[none, some 1]⟩, ⟨[some 2]⟩] : List (Fut Nat)) 1 =
          .won v →
      ∀ m, 1 ≤ m →
        RaceSame.stateAt ([⟨[none, some 1]⟩, ⟨[some 2]⟩] : List (Fut Nat)) m =
            .won v ∧
          RaceSame.pollsAt ([⟨[none, some 1]⟩, ⟨[some 2]⟩] :
            List (Fut Nat)) m = 0)) :=
  ⟨⟨by decide, by decide⟩, race_single_resolution _ (by decide) (by decide) 1⟩

end Woven

namespace Woven

/-- C5: the slot advance operation — an in-progress slot polls its
operation exactly once, storing a ready output (becoming completed) and
returning true, or keeping the once-polled operation and returning false;
a completed or consumed slot returns true immediately, unchanged, without
polling anything; and false is returned only while the operand is
genuinely still in progress. -/
theorem slot_advance_contract (α : Type u) :
    (∀ v : α, MaybeDone.poll (.done v) = (.done v, true)) ∧
    MaybeDone.poll (.gone : MaybeDone α) = (.gone, true) ∧
    (∀ (f : Fut α) (v : α) (f' : Fut α), Fut.poll f = (some v, f') →
      MaybeDone.poll (.future f) = (.done v, true)) ∧
    (∀ f f' : Fut α, Fut.poll f = (none, f') →
      MaybeDone.poll (.future f) = (.future f', false)) ∧
    (∀ s : MaybeDone α, (MaybeDone.poll s).2 = false →
      ∃ f f', s = .future f ∧ Fut.poll f = (none, f') ∧
        (MaybeDone.poll s).1 = .future f') := by
  refine ⟨fun v => rfl, rfl, ?_, ?_, ?_⟩
  · intro f v f' h
    rw [MaybeDone.poll, h]
  · intro f f' h
    rw [MaybeDone.poll, h]
  · intro s h
    cases s with
    | future f =>
      rcases hp : Fut.poll f with ⟨hd, f'⟩
      cases hd with
      | some v => rw [MaybeDone.poll, hp] at h; cases h
      | none => exact ⟨f, f', rfl, hp, by rw [MaybeDone.poll, hp]⟩
    | done v => cases h
    | gone => cases h

/-- Witness for C5: a pending poll leaves the slot in progress holding the
once-polled operand and returns false. -/
theorem slot_advance_contract_witness :
    Fut.poll (⟨[none, some 3]⟩ : Fut Nat) = (none, ⟨[some 3]⟩) ∧
    MaybeDone.poll (.future (⟨[none, some 3]⟩ : Fut Nat)) =
      (.future ⟨[some 3]⟩, false) :=
  ⟨by decide,
    (slot_advance_contract Nat).2.2.2.1 ⟨[none, some 3]⟩ ⟨[some 3]⟩ (by decide)⟩

/-- C6: slot extraction succeeds exactly in the completed state, moving
the value out and leaving the slot consumed; in any other state it is the
fatal unreachable branch.  Under the join driver protocol the fatal branch
is never reached and after completion every slot has been emptied exactly
once. -/
theorem slot_extract_contract (α : Type u) :
    (∀ v : α, MaybeDone.take_output (.done v) = some (v, .gone)) ∧
    (∀ f : Fut α, MaybeDone.take_output (.future f) = none) ∧
    MaybeDone.take_output (.gone : MaybeDone α) = none ∧
    (∀ (ops : List (Fut α)) (n : Nat), 2 ≤ ops.length →
      Join.drive ops n ≠ .fatal) ∧
    (∀ (ops : List (Fut α)) (n : Nat) (vs : List α)
      (slots : List (MaybeDone α)), 2 ≤ ops.length →
      Join.drive ops n = .ready vs slots → ∀ s ∈ slots, s = .gone) := by
  refine ⟨fun v => rfl, fun f => rfl, rfl, ?_, ?_⟩
  · intro ops n h2 hc
    have hne : ops ≠ [] := ne_nil_of_two_le h2
    by_cases hall : ∀ f ∈ ops, f.readyBy n = true
    · obtain ⟨vs, hd, _, _⟩ := (Join.drive_spec ops hne n).2 hall
      rw [hd] at hc
      cases hc
    · rw [(Join.drive_spec ops hne n).1 hall] at hc
      cases hc
  · intro ops n vs slots h2 h s hs
    rw [(Join.drive_ready_eq (ne_nil_of_two_le h2) h).2.1] at hs
    exact List.eq_of_mem_replicate hs

/-- Witness for C6: the two-operand join run never crashes, here checked
after 3 driver polls. -/
theorem slot_extract_contract_witness :
    2 ≤ ([⟨[none, some 1]⟩, ⟨[some 2]⟩] : List (Fut Nat)).length ∧
    Join.drive ([⟨[none, some 1]⟩, ⟨[some 2]⟩] : List (Fut Nat)) 3 ≠ .fatal :=
  ⟨by decide,
    (slot_extract_contract Nat).2.2.2.1 [⟨[none, some 1]⟩, ⟨[some 2]⟩] 3
      (by decide)⟩

/-- C7: the slot lifecycle is `InProgress → Completed → Consumed` with no
backward transition: advancing never lowers the lifecycle rank and never
produces a consumed slot; extraction goes exactly from completed to
consumed; and no consumed slot is ever observed while the join is still
pending. -/
theorem slot_lifecycle (α : Type u) :
    (∀ s : MaybeDone α, s.rank ≤ ((MaybeDone.poll s).1).rank) ∧
    (∀ s : MaybeDone α, (MaybeDone.poll s).1 = .gone → s = .gone) ∧
    (∀ (s : MaybeDone α) (v : α) (s' : MaybeDone α),
      MaybeDone.take_output s = some (v, s') → s = .done v ∧ s' = .gone) ∧
    (∀ (ops : List (Fut α)) (n : Nat) (slots : List (MaybeDone α)),
      2 ≤ ops.length → Join.drive ops n = .pending slots →
      ∀ s ∈ slots, s ≠ .gone) := by
  refine ⟨?_, ?_, ?_, ?_⟩
  · intro s
    cases s with
    | future f =>
      rcases hp : Fut.poll f with ⟨hd, f'⟩
      cases hd with
      | some v => rw [MaybeDone.poll, hp]; exact Nat.zero_le _
      | none => rw [MaybeDone.poll, hp]; exact Nat.le_refl _
    | done v => exact Nat.le_refl _
    | gone => exact Nat.le_refl _
  · intro s h
    cases s with
    | future f =>
      rcases hp : Fut.poll f with ⟨hd, f'⟩
      cases hd with
      | some v => rw [MaybeDone.poll, hp] at h; cases h
      | none => rw [MaybeDone.poll, hp] at h; cases h
    | done v => cases h
    | gone => rfl
  · intro s v s' h
    cases s with
    | future f => cases h
    | gone => cases h
    | done w =>
      rw [MaybeDone.take_output] at h
      have hp : (w, (MaybeDone.gone : MaybeDone α)) = (v, s') :=
        Option.some.inj h
      have h1 : w = v := congrArg Prod.fst hp
      have h2 : (MaybeDone.gone : MaybeDone α) = s' := congrArg Prod.snd hp
      exact ⟨congrArg MaybeDone.done h1, h2.symm⟩
  · intro ops n slots h2 h s hs
    obtain ⟨rfl, _⟩ := Join.drive_pending_eq (ne_nil_of_two_le h2) h
    rw [List.mem_map] at hs
    obtain ⟨f, _, rfl⟩ := hs
    exact slotAfter_ne_gone f n

/-- Witness for C7: after one cycle of the two-operand join, the pending
slots are one in-progress and one completed slot — none consumed. -/
theorem slot_lifecycle_witness :
    (2 ≤ ([⟨[none, some 1]⟩, ⟨[some 2]⟩] : List (Fut Nat)).length ∧
      Join.drive ([⟨[none, some 1]⟩, ⟨[some 2]⟩] : List (Fut Nat)) 1 =
        .pending [.future ⟨[some 1]⟩, .done 2]) ∧
    ∀ s ∈ ([.future ⟨[some 1]⟩, .done 2] : List (MaybeDone Nat)), s ≠ .gone :=
  ⟨⟨by decide, by decide⟩,
    (slot_lifecycle Nat).2.2.2 [⟨[none, some 1]⟩, ⟨[some 2]⟩] 1
      [.future ⟨[some 1]⟩, .done 2] (by decide) (by decide)⟩

end Woven

namespace Woven

/-- C8: an operand whose join slot is completed at some pending cycle has
its slot (and stored value) unchanged at every later pending cycle — its
advance takes the non-future branch (`poll (done v) = (done v, true)`), so
the underlying operation is never polled again. -/
theorem join_no_repoll {α : Type u} (ops : List (Fut α)) (h2 : 2 ≤ ops.length)
    (n : Nat) (slots : List (MaybeDone α)) (i : Nat) (v : α)
    (h : Join.drive ops n = .pending slots)
    (hi : slots[i]? = some (.done v)) :
    MaybeDone.poll (.done v) = (.done v, true) ∧
    ∀ m, n ≤ m → ∀ slots', Join.drive ops m = .pending slots' →
      slots'[i]? = some (.done v) := by
  have hne : ops ≠ [] := ne_nil_of_two_le h2
  obtain ⟨rfl, _⟩ := Join.drive_pending_eq hne h
  rw [List.getElem?_map, Option.map_eq_some'] at hi
  obtain ⟨f, hf, hsl⟩ := hi
  obtain ⟨t, hfr, htn⟩ := slotAfter_eq_done_iff.mp hsl
  refine ⟨rfl, fun m hm slots' h' => ?_⟩
  obtain ⟨rfl, _⟩ := Join.drive_pending_eq hne h'
  rw [List.getElem?_map, hf, Option.map_some']
  rw [slotAfter_eq_done_iff.mpr ⟨t, hfr, Nat.lt_of_lt_of_le htn hm⟩]

/-- Witness for C8: operand 1 completes on cycle 1; its slot still holds
the same stored value whenever the join is pending later. -/
theorem join_no_repoll_witness :
    (2 ≤ ([⟨[none, none, some 1]⟩, ⟨[some 2]⟩] : List (Fut Nat)).length ∧
      Join.drive ([⟨[none, none, some 1]⟩, ⟨[some 2]⟩] : List (Fut Nat)) 1 =
        .pending [.future ⟨[none, some 1]⟩, .done 2] ∧
      ([.future ⟨[none, some 1]⟩, .done 2] :
        List (MaybeDone Nat))[1]? = some (.done 2)) ∧
    (MaybeDone.poll (.done 2 : MaybeDone Nat) = (.done 2, true) ∧
      ∀ m, 1 ≤ m → ∀ slots',
        Join.drive ([⟨[none, none, some 1]⟩, ⟨[some 2]⟩] :
          List (Fut Nat)) m = .pending slots' →
        slots'[1]? = some (.done 2)) :=
  ⟨⟨by decide, by decide, by decide⟩,
    join_no_repoll [⟨[none, none, some 1]⟩, ⟨[some 2]⟩] (by decide) 1
      [.future ⟨[none, some 1]⟩, .done 2] 1 2 (by decide) (by decide)⟩

/-- C9: race-same is race with the positional tag discarded: the cycle
functions agree up to dropping the tag, the driven runs correspond under
the tag-discarding map at every poll count with identical operand-poll
counts, and whenever race completes with `(i, v)` race-same completes with
the bare `v`. -/
theorem race_same_refinement {α : Type u} (futs : List (Fut α))
    (h2 : 2 ≤ futs.length) (h16 : futs.length ≤ 16) (n : Nat) :
    RaceSame.cycle futs =
      ((Race.cycle futs).1.map Prod.snd, (Race.cycle futs).2) ∧
    RaceSame.stateAt futs n = RaceSt.untag (Race.stateAt futs n) ∧
    RaceSame.pollsAt futs n = Race.pollsAt futs n ∧
    (∀ i v, Race.stateAt futs n = .won (i, v) →
      RaceSame.stateAt futs n = .won v) := by
  obtain ⟨h1, hp⟩ := RaceSame.stateAt_eq futs n
  refine ⟨RaceSame.cycle_eq futs, h1, hp, ?_⟩
  intro i v hw
  rw [h1, hw]
  rfl

/-- Witness for C9: two operands of one output type; race completes with
the tagged winner `(0, 1)` on cycle 2 and race-same with the bare `1`. -/
theorem race_same_refinement_witness :
    (2 ≤ ([⟨[none, some 1]⟩, ⟨[none, none, some 2]⟩] :
        List (Fut Nat)).length ∧
      ([⟨[none, some 1]⟩, ⟨[none, none, some 2]⟩] :
        List (Fut Nat)).length ≤ 16) ∧
    (RaceSame.cycle ([⟨[none, some 1]⟩, ⟨[none, none, some 2]⟩] :
        List (Fut Nat)) =
      ((Race.cycle ([⟨[none, some 1]⟩, ⟨[none, none, some 2]⟩] :
          List (Fut Nat))).1.map Prod.snd,
        (Race.cycle ([⟨[none, some 1]⟩, ⟨[none, none, some 2]⟩] :
          List (Fut Nat))).2) ∧
    RaceSame.stateAt ([⟨[none, some 1]⟩, ⟨[none, none, some 2]⟩] :
        List (Fut Nat)) 2 =
      RaceSt.untag (Race.stateAt ([⟨[none, some 1]⟩, ⟨[none, none, some 2]⟩] :
        List (Fut Nat)) 2) ∧
    RaceSame.pollsAt ([⟨[none, some 1]⟩, ⟨[none, none, some 2]⟩] :
        List (Fut Nat)) 2 =
      Race.pollsAt ([⟨[none, some 1]⟩, ⟨[none, none, some 2]⟩] :
        List (Fut Nat)) 2 ∧
    (∀ i v,
      Race.stateAt ([⟨[none, some 1]⟩, ⟨[none, none, some 2]⟩] :
          List (Fut Nat)) 2 = .won (i, v) →
      RaceSame.stateAt ([⟨[none, some 1]⟩, ⟨[none, none, some 2]⟩] :
        List (Fut Nat)) 2 = .won v)) :=
  ⟨⟨by decide, by decide⟩,
    race_same_refinement _ (by decide) (by decide) 2⟩

/-- C10: if the combined join future is polled again after reporting
ready, all slots are consumed so the advance conjunction is true, and the
extraction path hits the fatal unreachable branch (a panic, not a pending
result or a second ready value). -/
theorem join_repoll_fatal {α : Type u} (ops : List (Fut α))
    (h2 : 2 ≤ ops.length) (n : Nat) (vs : List α)
    (slots : List (MaybeDone α)) (h : Join.drive ops n = .ready vs slots) :
    slots = List.replicate ops.length .gone ∧
    (Join.advanceAll slots).2 = true ∧
    Join.pollOnce slots = none := by
  obtain ⟨_, rfl, _, _⟩ := Join.drive_ready_eq (ne_nil_of_two_le h2) h
  refine ⟨rfl, ?_, Join.pollOnce_gone _ (by omega)⟩
  rw [Join.advanceAll_gone]

/-- Witness for C10: after the two-operand join completes, re-polling its
slot list panics on the unreachable extraction branch. -/
theorem join_repoll_fatal_witness :
    (2 ≤ ([⟨[none, some 1]⟩, ⟨[some 2]⟩] : List (Fut Nat)).length ∧
      Join.drive ([⟨[none, some 1]⟩, ⟨[some 2]⟩] : List (Fut Nat)) 2 =
        .ready [1, 2] [.gone, .gone]) ∧
    (([.gone, .gone] : List (MaybeDone Nat)) =
        List.replicate ([⟨[none, some 1]⟩, ⟨[some 2]⟩] :
          List (Fut Nat)).length .gone ∧
      (Join.advanceAll ([.gone, .gone] : List (MaybeDone Nat))).2 = true ∧
      Join.pollOnce ([.gone, .gone] : List (MaybeDone Nat)) = none) :=
  ⟨⟨by decide, by decide⟩,
    join_repoll_fatal [⟨[none, some 1]⟩, ⟨[some 2]⟩] (by decide) 2 [1, 2]
      [.gone, .gone] (by decide)⟩

end Woven
